import Mathlib

/-!
Verification of the qumulus Node CRDT and its surrounding control loops,
embedded shallowly from the Rust sources (`src/node.rs`, `src/delegate.rs`,
`src/manager.rs`, `src/store/fs.rs`).

Machine integers: all `u64` fields hold timestamps that are only compared,
copied and max-ed, never subject to arithmetic that could wrap, so they are
modelled as `Nat`.  `u64::max_value()` is `2^64 - 1`.

Bit operations on the `delegated` field are modelled arithmetically:
`delegated & 1 > 0` is `delegated % 2 = 1`, `ts | 1` is `ts - ts % 2 + 1`,
and `ts & !1` is `ts - ts % 2`.

`f64` leaf values are modelled by their raw bit pattern (a `Nat`); equality
of bit patterns differs from Rust's `PartialEq` on `f64` only at NaN and
signed zeros, which no claim exercises.

Ordered maps (`BTreeMap<String, _>`) are modelled as association lists kept
sorted by key; iteration order is ascending, as in Rust.
-/

namespace Qumulus

/-- Tracks visibility of a node (`Vis` in `src/node.rs`): a pair of
`updated` / `deleted` timestamps. -/
structure Vis where
  updated : Nat
  deleted : Nat
deriving DecidableEq, Repr

/-- `u64::max_value()`. -/
def u64max : Nat := 18446744073709551615

namespace Vis

/-- `Vis::new`. -/
def new (updated deleted : Nat) : Vis := ⟨updated, deleted⟩

/-- `Vis::update`: a `Vis` with the given `updated` timestamp. -/
def update (updated : Nat) : Vis := new updated 0

/-- `Vis::delete`: a `Vis` with the given `deleted` timestamp. -/
def delete (deleted : Nat) : Vis := new 0 deleted

/-- `Vis::permanent`: always visible. -/
def permanent : Vis := update u64max

/-- `Vis::descend`: effective visibility given child visibility.  The
receiver is the ancestor visibility, mutated in place in Rust; here the
new value is returned. -/
def descend (self child : Vis) : Vis :=
  ⟨if child.updated < self.updated then child.updated else self.updated,
   if child.deleted > self.deleted then child.deleted else self.deleted⟩

/-- `Vis::is_noop`. -/
def is_noop (self : Vis) : Bool := self.updated == 0 && self.deleted == 0

/-- `Vis::is_visible`. -/
def is_visible (self : Vis) : Bool := self.updated > self.deleted

/-- `Vis::merge`: resolve conflicts keeping the newest timestamps.  The
receiver is mutated in Rust; here the merged value is returned. -/
def mergeV (self diff : Vis) : Vis :=
  ⟨if diff.updated > self.updated then diff.updated else self.updated,
   if diff.deleted > self.deleted then diff.deleted else self.deleted⟩

end Vis

/-- Leaf value storable in a Node (`Value` in `src/value.rs`).  `F64`
carries the raw bit pattern of the double. -/
inductive Value where
  | null : Value
  | bool (b : Bool) : Value
  | i64 (v : Int) : Value
  | u64 (v : Nat) : Value
  | f64 (bits : Nat) : Value
  | string (s : String) : Value
deriving DecidableEq, Repr

mutual
/-- `Node` in `src/node.rs`: visibility, value, optional ordered child map,
and the delegation word (timestamp with delegation bit in bit 0). -/
inductive NodeL where
  | mk (vis : Vis) (value : Value) (keys : Option NKeys) (delegated : Nat) : NodeL
deriving Repr

/-- The ordered child map of a `Node` (`BTreeMap<String, Node>`), kept in
ascending key order. -/
inductive NKeys where
  | nil : NKeys
  | cons (k : String) (child : NodeL) (rest : NKeys) : NKeys
deriving Repr
end

namespace NodeL

def vis : NodeL → Vis | .mk v _ _ _ => v
def value : NodeL → Value | .mk _ v _ _ => v
def keys : NodeL → Option NKeys | .mk _ _ k _ => k
def delegated : NodeL → Nat | .mk _ _ _ d => d

/-- `Default for Node`. -/
def default : NodeL := .mk ⟨0, 0⟩ .null none 0

end NodeL

mutual
/-- `Update` in `src/node.rs`: the user-visible change record. -/
inductive UpdateL where
  | mk (visible : Option Bool) (old new : Option Value)
       (keys : Option UKeys) (delegated : Option Bool) : UpdateL
deriving Repr

/-- The ordered child map of an `Update`, kept in ascending key order. -/
inductive UKeys where
  | nil : UKeys
  | cons (k : String) (child : UpdateL) (rest : UKeys) : UKeys
deriving Repr
end

namespace UpdateL

def visible : UpdateL → Option Bool | .mk v _ _ _ _ => v
def old : UpdateL → Option Value | .mk _ o _ _ _ => o
def new : UpdateL → Option Value | .mk _ _ n _ _ => n
def keysOf : UpdateL → Option UKeys | .mk _ _ _ k _ => k
def delegatedOf : UpdateL → Option Bool | .mk _ _ _ _ d => d

/-- `Default for Update`. -/
def default : UpdateL := .mk none none none none none

/-- `Update::is_noop` — note that it does not inspect `delegated`. -/
def is_noop : UpdateL → Bool
  | .mk visible old new keys _ =>
    visible.isNone && old.isNone && new.isNone && keys.isNone

end UpdateL

/-- `External` in `src/node.rs`: data produced by a merge whose destination
is another zone.  `path` is relative to the zone root. -/
structure External where
  path : List String
  parent_vis : Vis
  node : NodeL
deriving Repr

/-- `DelegatedMatch` in `src/node.rs`: a delegation met during a read. -/
structure DelegatedMatch where
  path : List String
  match_spec : List String
deriving Repr

/-- Strict order on strings by scalar values, as `Ord` on Rust `String`
orders by UTF-8 bytes (UTF-8 byte order coincides with scalar order). -/
def strLtAux : List Char → List Char → Bool
  | [], [] => false
  | [], _ :: _ => true
  | _ :: _, [] => false
  | a :: as, b :: bs =>
    if a.toNat < b.toNat then true
    else if b.toNat < a.toNat then false
    else strLtAux as bs

/-- Strict order on strings (see `strLtAux`). -/
def strLt (a b : String) : Bool := strLtAux a.data b.data

/-- `BTreeMap::get` on the ordered child map. -/
def nkLookup : NKeys → String → Option NodeL
  | .nil, _ => none
  | .cons k c rest, key => if key = k then some c else nkLookup rest key

/-- `BTreeMap::insert` on the ordered child map: insert or replace,
keeping keys in ascending order. -/
def nkInsert : NKeys → String → NodeL → NKeys
  | .nil, key, c => .cons key c .nil
  | .cons k c' rest, key, c =>
    if strLt key k = true then .cons key c (.cons k c' rest)
    else if key = k then .cons key c rest
    else .cons k c' (nkInsert rest key c)

/-- `BTreeMap::insert` on the ordered child map of an `Update`. -/
def ukInsert : UKeys → String → UpdateL → UKeys
  | .nil, key, u => .cons key u .nil
  | .cons k u' rest, key, u =>
    if strLt key k = true then .cons key u (.cons k u' rest)
    else if key = k then .cons key u rest
    else .cons k u' (ukInsert rest key u)

/-- `BTreeMap::get` on the child map of an `Update`. -/
def ukLookup : UKeys → String → Option UpdateL
  | .nil, _ => none
  | .cons k u rest, key => if key = k then some u else ukLookup rest key

/-- `Update::add_child`: attach a child update under `k` if it is `Some`,
creating the child map on demand. -/
def addChild (keys : Option UKeys) (k : String) (child : Option UpdateL) : Option UKeys :=
  match child with
  | none => keys
  | some u => some (ukInsert (keys.getD .nil) k u)

/-- Look a node up by path (used to state per-path properties of merges). -/
def lookupN : NodeL → List String → Option NodeL
  | n, [] => some n
  | .mk _ _ keys _, k :: rest =>
    match keys with
    | none => none
    | some ks =>
      match nkLookup ks k with
      | none => none
      | some c => lookupN c rest

namespace NodeL

/-- `Node::delete`: a recursive delete at `timestamp`. -/
def delete (timestamp : Nat) : NodeL := .mk (Vis.delete timestamp) .null none 0

/-- `Node::delegate`: a delegation mark; `timestamp | 1`. -/
def delegate (timestamp : Nat) : NodeL :=
  .mk ⟨0, 0⟩ .null none (timestamp - timestamp % 2 + 1)

/-- `Node::undelegate`: remove a delegation mark; `timestamp & !1`. -/
def undelegate (timestamp : Nat) : NodeL :=
  .mk ⟨0, 0⟩ .null none (timestamp - timestamp % 2)

/-- `Node::delegated(&mut self)`: the external copy — takes the node's
`value` and `keys`, copies `vis` and `delegated`. -/
def detached (n : NodeL) : NodeL := .mk n.vis n.value n.keys n.delegated

/-- The node left behind by `Node::delegated(&mut self)`: `value` and
`keys` are moved out, `vis` and `delegated` stay. -/
def afterDetach (n : NodeL) : NodeL := .mk n.vis .null none n.delegated

/-- `Node::is_noop`. -/
def is_noop (n : NodeL) : Bool :=
  n.vis.is_noop && n.value == .null && n.keys.isNone

/-- `Node::byte_size`: estimated byte size of the value stored at this
node (string length is the UTF-8 byte length, as in Rust `str::len`). -/
def byte_size (n : NodeL) : Nat :=
  match n.value with
  | .bool _ => 1
  | .i64 _ => 8
  | .u64 _ => 8
  | .f64 _ => 8
  | .string s => s.utf8ByteSize
  | .null => 1

/-- Modelled from the spec: `Node::add_child` is called from
`src/delegate.rs` (`delegate_node.add_child(k, child)`) but its definition
is absent from this snapshot of `src/node.rs`; it inserts a child node
under the given key, creating the ordered child map on demand. -/
def add_child (n : NodeL) (k : String) (c : NodeL) : NodeL :=
  match n with
  | .mk v val keys d => .mk v val (some (nkInsert (keys.getD .nil) k c)) d

end NodeL

/-! JSON values (`serde_json::Value` as used by this vendored version:
`Null | Bool | I64 | U64 | F64 | String | Array | Object`), with objects
as ordered maps. -/

mutual
inductive JSONL where
  | null : JSONL
  | bool (b : Bool) : JSONL
  | i64 (v : Int) : JSONL
  | u64 (v : Nat) : JSONL
  | f64 (bits : Nat) : JSONL
  | str (s : String) : JSONL
  | obj (o : JObj) : JSONL
  | arr (a : JArr) : JSONL
deriving Repr

inductive JObj where
  | nil : JObj
  | cons (k : String) (v : JSONL) (rest : JObj) : JObj
deriving Repr

inductive JArr where
  | nil : JArr
  | cons (v : JSONL) (rest : JArr) : JArr
deriving Repr
end

mutual
/-- `Node::expand`: expand JSON data to a `Node`, stamping every created
node with `timestamp`. -/
def expand : JSONL → Nat → NodeL
  | .null, t => .mk (Vis.update t) .null none 0
  | .bool b, t => .mk (Vis.update t) (.bool b) none 0
  | .i64 v, t => .mk (Vis.update t) (.i64 v) none 0
  | .u64 v, t => .mk (Vis.update t) (.u64 v) none 0
  | .f64 v, t => .mk (Vis.update t) (.f64 v) none 0
  | .str s, t => .mk (Vis.update t) (.string s) none 0
  | .obj o, t => .mk (Vis.update t) .null (some (expandObj o t)) 0
  | .arr a, t => .mk (Vis.update t) .null (some (expandArr a t 0)) 0

/-- Expansion of a JSON object: each entry expanded, collected into the
ordered map (`collect` into a `BTreeMap`). -/
def expandObj : JObj → Nat → NKeys
  | .nil, _ => .nil
  | .cons k v rest, t => nkInsert (expandObj rest t) k (expand v t)

/-- Expansion of a JSON array: entries keyed by their decimal index
(`enumerate`), collected into the ordered map. -/
def expandArr : JArr → Nat → Nat → NKeys
  | .nil, _, _ => .nil
  | .cons v rest, t, i => nkInsert (expandArr rest t (i + 1)) (toString i) (expand v t)
end

/-- `Node::expand_from`: expand `data` at the end of `path`, intermediate
nodes being default (`Vis (0, 0)`). -/
def expand_from : List String → JSONL → Nat → NodeL
  | [], data, t => expand data t
  | first :: rest, data, t =>
    .mk ⟨0, 0⟩ .null (some (.cons first (expand_from rest data t) .nil)) 0

/-! ## The merge function (`fn merge` in `src/node.rs`, lines 364-550)

The recursion is split exactly along the source's blocks:
`mergeValueStep` is the "Merge value at node" block (lines 398-418),
`mergeDeleteStep` the "Merge deletion" block (lines 422-441), and
`mergeFinish` the delegation handoff plus the final no-op check
(lines 525-549).  `propagate` nodes are always childless with `Null`
value and `delegated = 0` (they are created only as `Default::default()`
or `Node::delete(ts)` and only their `vis` is ever mutated), so the
propagate pass (`mergePropagate`) carries just their `Vis`.

In Rust the function mutates `self` (the node), `diff` (retaining only
actual changes) and pushes onto `externals`; here the new node, the new
diff, the optional update and the externals produced (in push order) are
returned. -/

/-- Lines 398-418: merge the value at the node.  Input: the node's `vis`
and `value` and the diff's `vis.updated` and `value`.  Output: the node's
new `vis.updated` and `value`, the diff's new `vis.updated` and `value`,
the `changed` flag, and the started `propagate` node's `Vis`
(`Some(Default::default())` when the diff's timestamp is newer). -/
def mergeValueStep (nvis : Vis) (nval : Value) (dUpdated : Nat) (dval : Value) :
    Nat × Value × Nat × Value × Bool × Option Vis :=
  if dUpdated > nvis.updated then
    -- timestamp newer, use updated value
    let vc := if nval ≠ dval then (dval, true) else (nval, false)
    (dUpdated, vc.1, dUpdated, dval, vc.2, some ⟨0, 0⟩)
  else if dUpdated < nvis.updated then
    -- outdated diff, throw away
    (nvis.updated, nval, 0, .null, false, none)
  else
    -- same timestamp: a differing value is only logged, nothing changes
    (nvis.updated, nval, dUpdated, dval, false, none)

/-- Lines 422-441: merge the deletion.  Input: the node's `vis.updated`
(after the value step), its `vis.deleted`, its current value, the diff's
`vis.deleted` and the current `propagate`.  Output: the node's new
`vis.deleted` and `value`, the diff's new `vis.deleted`, and the new
`propagate`. -/
def mergeDeleteStep (nUpdated nDeleted : Nat) (nval : Value) (dDeleted : Nat)
    (propagate : Option Vis) : Nat × Value × Nat × Option Vis :=
  if dDeleted > nDeleted then
    -- newer deletion, so delete
    let nval' := if nUpdated < dDeleted then Value.null else nval
    let propagate' := match propagate with
      | some p => some ⟨p.updated, dDeleted⟩
      | none => some (Vis.delete dDeleted)
    (dDeleted, nval', dDeleted, propagate')
  else
    -- outdated delete, throw away
    (nDeleted, nval, 0, propagate)

/-- Lines 525-549: delegation handoff and the final no-op check.  If we
are below the zone root (`stack` nonempty) and the node's delegation bit
is set, the node's `value` and `keys` are detached into an `External`
(its `vis` and `delegated` are copied) and the update is cleared except
for `delegated = true`; in all cases a no-op update becomes `None`. -/
def mergeFinish (stack : List String) (node : NodeL) (update : UpdateL)
    (exts : List External) (visNewD : Vis) : NodeL × Option UpdateL × List External :=
  if stack.length > 0 ∧ node.delegated % 2 = 1 then
    let exts' := exts ++ [⟨stack, visNewD, node.detached⟩]
    let update' : UpdateL := .mk none none none none (some true)
    (node.afterDetach, (if update'.is_noop = true then none else some update'), exts')
  else
    (node, (if update.is_noop = true then none else some update), exts)

/-- Lines 446-468: the user-visible transition of this node, from the old
and new effective visibility, the `changed` flag, the pre-merge value (the
candidate `update.old` set at line 386) and the post-merge value.  Returns
the update's `(visible, old, new)`. -/
def mergeTransition (oldVisible newVisible : Bool) (changed : Bool)
    (old0 : Option Value) (nval : Value) : Option Bool × Option Value × Option Value :=
  match oldVisible, newVisible with
  | false, false => (none, none, none)
  | false, true => (some true, none, some nval)
  | true, false => (some false, old0, none)
  | true, true =>
    if changed = true then (none, old0, some nval) else (none, none, none)

mutual
/-- The recursive merge (`fn merge`) specialised to the `propagate` diffs
it feeds to existing children (lines 470-484): childless nodes with `Null`
value and `delegated = 0`, represented by their `Vis` alone.  Mirrors the
full body: the delegated step degenerates (`diff.delegated = 0`), the
"Merge keys" block is skipped (`diff.keys` is `None`), everything else is
identical.  Returns the new node, the mutated propagate `Vis`, the
update and the externals. -/
def mergePropagate (stack : List String) (node : NodeL) (dvis : Vis)
    (visOld visNew : Vis) : NodeL × Vis × Option UpdateL × List External :=
  match node with
  | .mk nvis nval nkeys ndel =>
    let visOld' := visOld.descend nvis
    let old0 : Option Value := if visOld'.is_visible = true then some nval else none
    -- (node.vis.updated, node.value, diff.vis.updated, diff.value, changed, propagate)
    let v := mergeValueStep nvis nval dvis.updated .null
    -- (node.vis.deleted, node.value, diff.vis.deleted, propagate)
    let d := mergeDeleteStep v.1 nvis.deleted v.2.1 dvis.deleted v.2.2.2.2.2
    let nvis' : Vis := ⟨v.1, d.1⟩
    let visNew' := visNew.descend nvis'
    -- (update.visible, update.old, update.new)
    let tr := mergeTransition visOld'.is_visible visNew'.is_visible v.2.2.2.2.1 old0 d.2.1
    -- (node.keys, update.keys, externals) after the propagate pass
    let pk : Option NKeys × Option UKeys × List External :=
      match d.2.2.2, nkeys with
      | some pvis, some ks =>
        let r := propagateChildren stack ks pvis visOld' visNew' none
        (some r.1, r.2.2.1, r.2.2.2)
      | some _, none => (nkeys, none, [])
      | none, _ => (nkeys, none, [])
    let update : UpdateL := .mk tr.1 tr.2.1 tr.2.2 pk.2.1 none
    let node' : NodeL := .mk nvis' d.2.1 pk.1 ndel
    let fin := mergeFinish stack node' update pk.2.2 visNew'
    (fin.1, ⟨v.2.2.1, d.2.2.1⟩, fin.2.1, fin.2.2)

/-- Lines 472-484: "Uncloak / delete children" — merge the propagate node
into every existing child in ascending key order, threading the mutated
propagate `Vis` from child to child (in Rust the same `p_node` is reused
across the loop), accumulating child updates and externals. -/
def propagateChildren (stack : List String) (entries : NKeys) (pvis : Vis)
    (visOld visNew : Vis) (acc : Option UKeys) :
    NKeys × Vis × Option UKeys × List External :=
  match entries with
  | .nil => (.nil, pvis, acc, [])
  | .cons k child rest =>
    -- (child node, propagate vis, child update, externals)
    let c := mergePropagate (stack ++ [k]) child pvis visOld visNew
    let acc1 := addChild acc k c.2.2.1
    let r := propagateChildren stack rest c.2.1 visOld visNew acc1
    (.cons k c.1 r.1, r.2.1, r.2.2.1, c.2.2.2 ++ r.2.2.2)
end

mutual
/-- `fn merge` (lines 364-550): merge `diff` into `node`.  `stack` is the
path from the zone root to this node, `visOld` / `visNew` the previous and
next ancestor visibilities.  Returns the new node, the retained diff, the
optional update and the externals in push order. -/
def mergeInner (stack : List String) (node diff : NodeL) (visOld visNew : Vis) :
    NodeL × NodeL × Option UpdateL × List External :=
  match node, diff with
  | .mk nvis nval nkeys ndel, .mk dvis dval dkeys ddel =>
    -- "Previous" effective visibility of this node
    let visOld' := visOld.descend nvis
    -- Merge external status of node: (node.delegated, diff.delegated)
    let dd : Nat × Nat := if ddel > 0 ∧ ddel > ndel then (ddel, ddel) else (ndel, 0)
    let old0 : Option Value := if visOld'.is_visible = true then some nval else none
    -- Merge value at node:
    -- (node.vis.updated, node.value, diff.vis.updated, diff.value, changed, propagate)
    let v := mergeValueStep nvis nval dvis.updated dval
    -- Merge deletion: (node.vis.deleted, node.value, diff.vis.deleted, propagate)
    let d := mergeDeleteStep v.1 nvis.deleted v.2.1 dvis.deleted v.2.2.2.2.2
    let nvis' : Vis := ⟨v.1, d.1⟩
    -- "New" effective visibility of this node
    let visNew' := visNew.descend nvis'
    -- (update.visible, update.old, update.new)
    let tr := mergeTransition visOld'.is_visible visNew'.is_visible v.2.2.2.2.1 old0 d.2.1
    -- Propagate uncloaks / deletes: (node.keys, update.keys, externals)
    let pk : Option NKeys × Option UKeys × List External :=
      match d.2.2.2, nkeys with
      | some pvis, some ks =>
        let r := propagateChildren stack ks pvis visOld' visNew' none
        (some r.1, r.2.2.1, r.2.2.2)
      | some _, none => (nkeys, none, [])
      | none, _ => (nkeys, none, [])
    -- Merge keys: (node.keys, diff.keys, update.keys, externals)
    let mk2 : Option NKeys × Option NKeys × Option UKeys × List External :=
      match dkeys with
      | none => (pk.1, none, pk.2.1, [])
      | some dks =>
        let base : NKeys := match pk.1 with | some ks => ks | none => .nil
        let r := mergeKeysChildren stack base dks visOld' visNew' pk.2.1
        (some r.1, some r.2.1, r.2.2.1, r.2.2.2)
    let update : UpdateL := .mk tr.1 tr.2.1 tr.2.2 mk2.2.2.1 none
    let node' : NodeL := .mk nvis' d.2.1 mk2.1 dd.1
    let diffOut : NodeL := .mk ⟨v.2.2.1, d.2.2.1⟩ v.2.2.2.1 mk2.2.1 dd.2
    -- Handle delegation
    let fin := mergeFinish stack node' update (pk.2.2 ++ mk2.2.2.2) visNew'
    (fin.1, diffOut, fin.2.1, fin.2.2)

/-- Lines 487-523: "Merge keys" — for each diff child in ascending key
order, merge into the existing child (`Entry::Occupied`) or into a fresh
default node kept only if the recursive merge produced an update
(`Entry::Vacant`).  Returns the new child map, the retained diff children,
the accumulated child updates and the externals. -/
def mergeKeysChildren (stack : List String) (nodeKeys : NKeys) (dkeys : NKeys)
    (visOld visNew : Vis) (acc : Option UKeys) :
    NKeys × NKeys × Option UKeys × List External :=
  match dkeys with
  | .nil => (nodeKeys, .nil, acc, [])
  | .cons k dchild drest =>
    match nkLookup nodeKeys k with
    | some child =>
      -- Existing node exists, so recursively merge
      -- (child node, child diff, child update, externals)
      let c := mergeInner (stack ++ [k]) child dchild visOld visNew
      let nodeKeys' := nkInsert nodeKeys k c.1
      let acc1 := addChild acc k c.2.2.1
      let r := mergeKeysChildren stack nodeKeys' drest visOld visNew acc1
      (r.1, .cons k c.2.1 r.2.1, r.2.2.1, c.2.2.2 ++ r.2.2.2)
    | none =>
      -- No existing node, merge to empty node
      let c := mergeInner (stack ++ [k]) NodeL.default dchild visOld visNew
      -- If there are actual changes, keep node child
      let nodeKeys' := if c.2.2.1.isSome = true then nkInsert nodeKeys k c.1 else nodeKeys
      let acc1 := addChild acc k c.2.2.1
      let r := mergeKeysChildren stack nodeKeys' drest visOld visNew acc1
      (r.1, .cons k c.2.1 r.2.1, r.2.2.1, c.2.2.2 ++ r.2.2.2)
end

/-- `Node::merge` (lines 303-315): the public entry point, starting with
an empty stack. -/
def mergeTop (node diff : NodeL) (visOld visNew : Vis) :
    NodeL × NodeL × Option UpdateL × List External :=
  mergeInner [] node diff visOld visNew

/-! ## The read function (`fn read` in `src/node.rs`, lines 553-642) -/

mutual
/-- `fn read` (lines 553-642): read user-visible data matched by `path`
from position `pos`, `stack` being the path from the zone root.  Returns
the update and the `DelegatedMatch`es in push order. -/
def readInner (stack : List String) (node : NodeL) (vis : Vis)
    (path : List String) (pos : Nat) : Option UpdateL × List DelegatedMatch :=
  match node with
  | .mk nvis nval nkeys ndel =>
    -- Effective visibility of this node
    let vis' := vis.descend nvis
    -- Delegated data
    if stack.length > 0 ∧ ndel % 2 = 1 then
      (some (.mk none none none none (some true)), [⟨stack, path.drop pos⟩])
    else
      -- (update.visible, update.new)
      let vn : Option Bool × Option Value :=
        if stack.length ≥ path.length then
          -- Get value at this node
          if vis'.is_visible = true then (some vis'.is_visible, some nval) else (none, none)
        else (none, none)
      -- (update.keys, delegated matches)
      let ud : Option UKeys × List DelegatedMatch :=
        if pos < path.length then
          -- Match / get child values
          match nkeys with
          | none => (none, [])
          | some ks =>
            let part := path.getD pos ""
            if part = "*" then readChildren stack ks vis' path (pos + 1) none
            else if part = "**" then readChildren stack ks vis' path pos none
            else readLookup stack ks vis' path pos part none
        else (none, [])
      let update : UpdateL := .mk vn.1 none vn.2 ud.1 none
      ((if update.is_noop = true then none else some update), ud.2)

/-- Lines 595-616: the `*` / `**` loops — read every child in ascending
key order at child position `cpos` (`pos + 1` for `*`, `pos` for `**`),
accumulating child updates and delegated matches. -/
def readChildren (stack : List String) (entries : NKeys) (vis : Vis)
    (path : List String) (cpos : Nat) (acc : Option UKeys) :
    Option UKeys × List DelegatedMatch :=
  match entries with
  | .nil => (acc, [])
  | .cons k child rest =>
    let c := readInner (stack ++ [k]) child vis path cpos
    let acc1 := addChild acc k c.1
    let r := readChildren stack rest vis path cpos acc1
    (r.1, c.2 ++ r.2)

/-- Lines 618-634: "Match one" — `node_keys.get(part)` fused with the
recursive read of the found child (absent key: nothing). -/
def readLookup (stack : List String) (entries : NKeys) (vis : Vis)
    (path : List String) (pos : Nat) (part : String) (acc : Option UKeys) :
    Option UKeys × List DelegatedMatch :=
  match entries with
  | .nil => (acc, [])
  | .cons k child rest =>
    if part = k then
      let c := readInner (stack ++ [part]) child vis path (pos + 1)
      (addChild acc part c.1, c.2)
    else
      readLookup stack rest vis path pos part acc
end

/-- `Node::read` (lines 317-328): the public entry point, starting with
an empty stack and position `0`. -/
def readTop (node : NodeL) (vis : Vis) (path : List String) :
    Option UpdateL × List DelegatedMatch :=
  readInner [] node vis path 0

/-! ## `Update::to_json` (`src/node.rs`, lines 332-359) -/

mutual
/-- `Update::to_json`: `[keys_object|null, visible|null, value]`.  The keys
object drops every child whose update is marked `delegated = Some(true)`
(the `filter_map` at lines 350-355). -/
def toJson : UpdateL → JSONL
  | .mk visible old newv keys _ =>
    let _ := old
    let visJ : JSONL := match visible with
      | none => .null
      | some false => .bool false
      | some true => .bool true
    let valJ : JSONL := match newv with
      | none => .null
      | some .null => .null
      | some (.bool b) => .bool b
      | some (.i64 v) => .i64 v
      | some (.u64 v) => .u64 v
      | some (.f64 v) => .f64 v
      | some (.string s) => .str s
    let keysJ : JSONL := match keys with
      | none => .null
      | some ks => .obj (toJsonKeys ks)
    .arr (.cons keysJ (.cons visJ (.cons valJ .nil)))

/-- The `filter_map` over the update's children: delegated children are
omitted, the rest encoded recursively, in ascending key order. -/
def toJsonKeys : UKeys → JObj
  | .nil => .nil
  | .cons k u rest =>
    match u.delegatedOf with
    | some true => toJsonKeys rest
    | _ => .cons k (toJson u) (toJsonKeys rest)
end

/-- Lookup in a JSON object. -/
def jobjLookup : JObj → String → Option JSONL
  | .nil, _ => none
  | .cons k v rest, key => if key = k then some v else jobjLookup rest key

/-- The keys object of an encoded update (`to_json` returns
`[keys, visible, value]`), looked up at `k`. -/
def jsonKeysLookup (j : JSONL) (k : String) : Option JSONL :=
  match j with
  | .arr (.cons (.obj o) _) => jobjLookup o k
  | _ => none

/-- The child update of an `Update` at key `k`. -/
def updateChild (u : UpdateL) (k : String) : Option UpdateL :=
  match u.keysOf with
  | none => none
  | some ks => ukLookup ks k

/-! ## The delegation policy (`src/delegate.rs`)

`check_node` calls `time::precise_time_ns()` each time it creates a
delegation mark; the clock is modelled as a stream `clock : Nat → Nat`
read at an increasing index threaded through the computation.
`Node::each_child` (absent from this snapshot of `src/node.rs`) iterates
children in ascending key order, as `BTreeMap` iteration does. -/

/-- Strict order on `BinaryHeap<(usize, String)>` entries (tuple order). -/
def pairLt (a b : Nat × String) : Bool := a.1 < b.1 || (a.1 == b.1 && strLt a.2 b.2)

/-- `BinaryHeap::pop` on a nonempty heap: extract the greatest entry. -/
def heapPop : (Nat × String) → List (Nat × String) → (Nat × String) × List (Nat × String)
  | h, [] => (h, [])
  | h, x :: rest =>
    let m := heapPop x rest
    if pairLt h m.1 = true then (m.1, h :: m.2) else (h, m.2)

/-- The `while total_size > 65535` loop of `check_node` (lines 47-55):
pop the largest child, delegate it at the current clock reading, subtract
its size.  `fuel` is the heap length: the loop pops exactly one entry per
iteration, so this is exact. -/
def delegateLoop (clock : Nat → Nat) : Nat → List (Nat × String) → Nat → NodeL → Nat →
    Nat × NodeL × Nat
  | 0, _, total, dn, i => (total, dn, i)
  | fuel + 1, heap, total, dn, i =>
    if total > 65535 then
      match heap with
      | [] => (total, dn, i)
      | h :: t =>
        let m := heapPop h t
        delegateLoop clock fuel m.2 (total - m.1.1)
          (dn.add_child m.1.2 (NodeL.delegate (clock i))) (i + 1)
    else (total, dn, i)

mutual
/-- `check_node` (`src/delegate.rs` lines 19-61): returns the estimated
total byte size of the subtree, the optional delegation node, and the next
clock index. -/
def check_node (clock : Nat → Nat) (node : NodeL) (i : Nat) :
    Nat × Option NodeL × Nat :=
  match node with
  | .mk vis val keys del =>
    let totalSize := NodeL.byte_size (.mk vis val keys del)
    if totalSize > 32768 then
      -- delegate-this-node strategy is a TODO in the source; delegate_node
      -- stays default, hence `None`
      (totalSize, none, i)
    else
      -- (delegate_node, size of children, heap of largest children, clock index)
      let c : NodeL × Nat × List (Nat × String) × Nat :=
        match keys with
        | none => (NodeL.default, 0, [], i)
        | some ks => checkChildren clock ks NodeL.default i
      let l := delegateLoop clock c.2.2.1.length c.2.2.1 (totalSize + c.2.1) c.1 c.2.2.2
      (l.1, (if l.2.1.is_noop = true then none else some l.2.1), l.2.2)

/-- The `each_child` fold of `check_node` (lines 32-45): recursively check
each child, accumulate nested delegations into `dn`, add `k.len()` to the
child size, and push children larger than 1024 bytes onto the heap. -/
def checkChildren (clock : Nat → Nat) (ks : NKeys) (dn : NodeL) (i : Nat) :
    NodeL × Nat × List (Nat × String) × Nat :=
  match ks with
  | .nil => (dn, 0, [], i)
  | .cons k child rest =>
    -- (child size, child delegations, clock index)
    let c := check_node clock child i
    let dn1 := match c.2.1 with
      | none => dn
      | some cd => dn.add_child k cd
    let childSize := c.1 + k.utf8ByteSize
    let heapEntry : List (Nat × String) := if childSize > 1024 then [(childSize, k)] else []
    let r := checkChildren clock rest dn1 c.2.2
    (r.1, childSize + r.2.1, heapEntry ++ r.2.2.1, r.2.2.2)
end

def MAX_LOADED_SOFT : Nat := 600
def MAX_LOADED_HARD : Nat := 800

structure MState where
  loaded : Nat
  requesting_load : Nat
deriving DecidableEq, Repr

inductive MEvent where
  | request : MEvent
  | hibernated : MEvent
deriving DecidableEq, Repr

/-- One Manager step.  `load_zone`: queue the zone iff
`loaded > MAX_LOADED_HARD`, else load it at once (incrementing `loaded`).
`zone_hibernated`: decrement `loaded`, then admit the front waiter (if
any), incrementing `loaded` again. -/
def mstep (s : MState) : MEvent → MState
  | .request =>
    if s.loaded > MAX_LOADED_HARD then
      { s with requesting_load := s.requesting_load + 1 }
    else
      { s with loaded := s.loaded + 1 }
  | .hibernated =>
    let l := s.loaded - 1
    if s.requesting_load > 0 then
      { loaded := l + 1, requesting_load := s.requesting_load - 1 }
    else
      { loaded := l, requesting_load := s.requesting_load }

/-- Run a sequence of Manager events. -/
def mrun (s : MState) : List MEvent → MState
  | [] => s
  | e :: es => mrun (mstep s e) es

/-- The Manager's initial state (`Manager::new`): nothing loaded, empty
queue. -/
def minit : MState := ⟨0, 0⟩

/-- A hibernation notification only ever comes from a currently loaded
zone, so a trace is valid when every `hibernated` event occurs with
`loaded > 0` (this is what makes the `usize` decrement exact). -/
def mvalid (s : MState) : List MEvent → Prop
  | [] => True
  | e :: es => (e = .hibernated → s.loaded > 0) ∧ mvalid (mstep s e) es

instance mvalidDec (s : MState) (es : List MEvent) : Decidable (mvalid s es) := by
  induction es generalizing s with
  | nil => exact isTrue trivial
  | cons e es ih => exact @instDecidableAnd _ _ inferInstance (ih (mstep s e))

/-! ## Store (`src/store/fs.rs`)

The filesystem is modelled as a map from file path to outcome of
`File::open` + `read_to_end`, and `bincode::deserialize` (an external
crate) as an abstract decoder. -/

/-- Modelled from the spec: `NodeTree` — "a `Node` plus the effective
`Vis` that the zone inherits from its ancestors" (spec §3).  Its
definition is absent from this snapshot of `src/node.rs`, though
`src/zone.rs` imports and derives `Default` through it. -/
structure NodeTree where
  node : NodeL
  vis : Vis
deriving Repr

/-- `ZoneData` (`src/zone.rs`): persistent form, path plus tree. -/
structure ZoneDataL where
  path : List String
  tree : NodeTree
deriving Repr

/-- `Default` for `ZoneData`: empty path, default node, default vis. -/
def ZoneDataL.default : ZoneDataL := ⟨[], ⟨NodeL.default, ⟨0, 0⟩⟩⟩

/-- Outcome of opening and reading a file. -/
inductive FileOutcome where
  | notFound : FileOutcome
  | ioError : FileOutcome
  | content (bytes : List Nat) : FileOutcome

/-- `StoreError` (`src/store/mod.rs`). -/
inductive StoreErrorL where
  | readError : StoreErrorL
  | writeError : StoreErrorL
deriving DecidableEq, Repr

/-- `blocking_read` (`src/store/fs.rs` lines 220-256): a missing file
yields `Ok(Default::default())`; any other open/read error is a
`ReadError`; otherwise the bytes are deserialized. -/
def blocking_read (fs : String → FileOutcome) (deser : List Nat → Option ZoneDataL)
    (filepath : String) : Except StoreErrorL ZoneDataL :=
  match fs filepath with
  | .notFound => .ok ZoneDataL.default
  | .ioError => .error .readError
  | .content buffer =>
    match deser buffer with
    | none => .error .readError
    | some data => .ok data

/-- `FS::load` (lines 116-146): the message sent to the zone — on
`Ok(node)`, `zone.loaded(node)`; on error, only logging/counters, no
message. -/
def fsLoad (fs : String → FileOutcome) (deser : List Nat → Option ZoneDataL)
    (filepath : String) : Option ZoneDataL :=
  match blocking_read fs deser filepath with
  | .ok node => some node
  | .error _ => none

/-! ## Derived notions used to state the claims -/

/-- The visible value of a node under ancestor visibility `anc`: its value
when its effective visibility (`anc` descended into the node's own vis) is
visible, nothing otherwise. -/
def visValue (anc : Vis) (n : NodeL) : Option Value :=
  if (anc.descend n.vis).is_visible = true then some n.value else none

/-- The effective visibility of a node under ancestor visibility `anc`. -/
def effVis (anc : Vis) (n : NodeL) : Vis := anc.descend n.vis

mutual
/-- Erase the timestamps of delegation marks, keeping only the delegation
bit: the shape of a delegation decision. -/
def eraseTs : NodeL → NodeL
  | .mk v val keys d =>
    .mk v val (match keys with | none => none | some ks => some (eraseTsKeys ks)) (d % 2)

def eraseTsKeys : NKeys → NKeys
  | .nil => .nil
  | .cons k c rest => .cons k (eraseTs c) (eraseTsKeys rest)
end

/-- All keys of the update child map are strictly greater than `k`. -/
def ukAllGt (k : String) : UKeys → Bool
  | .nil => true
  | .cons k' _ rest => strLt k k' && ukAllGt k rest

/-- The update child map has strictly ascending keys (the `BTreeMap`
representation invariant). -/
def ukSorted : UKeys → Bool
  | .nil => true
  | .cons k _ rest => ukAllGt k rest && ukSorted rest

mutual
/-- Size of a node, for well-founded recursion over the node/child-map
mutual tree. -/
def sizeN : NodeL → Nat
  | .mk _ _ none _ => 1
  | .mk _ _ (some ks) _ => 1 + sizeK ks

/-- Size of a child map (see `sizeN`). -/
def sizeK : NKeys → Nat
  | .nil => 1
  | .cons _ c rest => 1 + sizeN c + sizeK rest
end

/-- The value computed by merging a childless diff into a childless node
(the timestamp-first-write rule of the value step composed with the
deletion step): a strictly newer deletion that also covers the updated
timestamp clears the value; otherwise a strictly newer update adopts the
diff's value; otherwise (older or equal timestamp) the node's value is
retained. -/
def childlessVal (nv : Vis) (nval : Value) (dv : Vis) (dval : Value) : Value :=
  if dv.deleted > nv.deleted ∧ max nv.updated dv.updated < dv.deleted then .null
  else if dv.updated > nv.updated then dval else nval

/-! ## Supporting lemmas -/

theorem mergeValueStep_eq_ts {nv : Vis} (nval : Value) {dU : Nat} (dval : Value)
    (h : dU = nv.updated) :
    mergeValueStep nv nval dU dval = (nv.updated, nval, dU, dval, false, none) := by
  subst h
  simp [mergeValueStep]

theorem mergeDeleteStep_le {nU nD : Nat} (nval : Value) {dD : Nat} (prop : Option Vis)
    (h : dD ≤ nD) :
    mergeDeleteStep nU nD nval dD prop = (nD, nval, 0, prop) := by
  simp [mergeDeleteStep, Nat.not_lt.mpr h]

/-! ## C7 -/

/-- C7: Equal-timestamp conflict resolution.  The value-merge step of
`merge` (`src/node.rs` lines 398-418) with `diff.vis.updated` equal to the
node's `vis.updated` leaves the node's value and timestamp unchanged,
reports no change, schedules no propagation, and leaves the diff alone
(the conflict is only logged); consequently a whole `Node::merge` whose
diff carries that equal update timestamp and no newer deletion leaves the
node's value untouched — the diff's value is never adopted. -/
theorem equal_ts_retains_first_writer :
    (∀ (nvis : Vis) (nval : Value) (dU : Nat) (dval : Value), dU = nvis.updated →
      mergeValueStep nvis nval dU dval = (nvis.updated, nval, dU, dval, false, none)) ∧
    (∀ (node diff : NodeL) (vo vn : Vis),
      diff.vis.updated = node.vis.updated → diff.vis.deleted ≤ node.vis.deleted →
      (mergeTop node diff vo vn).1.value = node.value) := by
  constructor
  · intro nvis nval dU dval h
    exact mergeValueStep_eq_ts nval dval h
  · intro node diff vo vn h1 h2
    cases node with
    | mk nvis nval nkeys ndel =>
      cases diff with
      | mk dvis dval dkeys ddel =>
        simp only [NodeL.vis] at h1 h2
        cases dkeys <;>
          simp [mergeTop, mergeInner, mergeValueStep_eq_ts nval dval h1,
            mergeDeleteStep_le _ _ h2, mergeFinish, NodeL.value]

/-- Witness for C7 at a concrete input: node value `1` at timestamp `5`,
diff value `2` at the same timestamp — the merged value stays `1`. -/
theorem equal_ts_retains_first_writer_witness :
    (mergeTop (.mk ⟨5, 0⟩ (.u64 1) none 0) (.mk ⟨5, 0⟩ (.u64 2) none 0)
        Vis.permanent Vis.permanent).1.value = Value.u64 1 :=
  equal_ts_retains_first_writer.2 (.mk ⟨5, 0⟩ (.u64 1) none 0) (.mk ⟨5, 0⟩ (.u64 2) none 0)
    Vis.permanent Vis.permanent rfl (by decide)

/-! ## C8 -/

/-- C8: Read at a delegated node.  When the read recursion is below the
zone root (`stack` nonempty) and the node's delegation bit is set, it
pushes a `DelegatedMatch` with the path to the node and the unconsumed
match path, and returns an update that is only `delegated = true` —
no descent, no local value. -/
theorem read_at_delegated_node (stack : List String) (node : NodeL) (vis : Vis)
    (path : List String) (pos : Nat) (hs : stack ≠ []) (hd : node.delegated % 2 = 1) :
    readInner stack node vis path pos =
      (some (.mk none none none none (some true)), [⟨stack, path.drop pos⟩]) := by
  cases node with
  | mk nvis nval nkeys ndel =>
    simp only [NodeL.delegated] at hd
    have hc : stack.length > 0 ∧ ndel % 2 = 1 := ⟨List.length_pos.mpr hs, hd⟩
    cases nkeys with
    | none => rw [readInner.eq_1, if_pos hc]
    | some ks => rw [readInner.eq_2, if_pos hc]

/-- Witness for C8 at a concrete input. -/
theorem read_at_delegated_node_witness :
    readInner ["k"] (.mk ⟨7, 0⟩ (.u64 3) none 9) Vis.permanent ["k", "x", "y"] 1 =
      (some (.mk none none none none (some true)), [⟨["k"], ["x", "y"]⟩]) :=
  read_at_delegated_node ["k"] (.mk ⟨7, 0⟩ (.u64 3) none 9) Vis.permanent
    ["k", "x", "y"] 1 (by decide) (by decide)

/-! ## C9 -/

/-- C9: Loading a zone whose backing file is absent succeeds with the
default (empty) `ZoneData`: `blocking_read` maps `NotFound` to
`Ok(Default::default())`, and `FS::load` then sends `loaded` with that
empty data. -/
theorem load_absent_file_yields_default (fs : String → FileOutcome)
    (deser : List Nat → Option ZoneDataL) (filepath : String)
    (h : fs filepath = .notFound) :
    blocking_read fs deser filepath = .ok ZoneDataL.default ∧
    fsLoad fs deser filepath = some ZoneDataL.default := by
  constructor
  · simp [blocking_read, h]
  · simp [fsLoad, blocking_read, h]

/-- Witness for C9 at a concrete input: the empty filesystem. -/
theorem load_absent_file_yields_default_witness :
    blocking_read (fun _ => .notFound) (fun _ => none) "data_x/r_0" = .ok ZoneDataL.default ∧
    fsLoad (fun _ => .notFound) (fun _ => none) "data_x/r_0" = some ZoneDataL.default :=
  load_absent_file_yields_default (fun _ => .notFound) (fun _ => none) "data_x/r_0" rfl

/-! ## C10 -/

/-- Plain structural induction on `UKeys` (the `induction` tactic cannot
use the mutual recursor directly). -/
theorem ukeysRecAux {motive : UKeys → Prop} (h0 : motive .nil)
    (h1 : ∀ k u rest, motive rest → motive (.cons k u rest)) : ∀ ks, motive ks
  | .nil => h0
  | .cons k u rest => h1 k u rest (ukeysRecAux h0 h1 rest)

/-- Plain structural induction on `NKeys`. -/
theorem nkeysRecAux {motive : NKeys → Prop} (h0 : motive .nil)
    (h1 : ∀ k c rest, motive rest → motive (.cons k c rest)) : ∀ ks, motive ks
  | .nil => h0
  | .cons k c rest => h1 k c rest (nkeysRecAux h0 h1 rest)

theorem strLt_irrefl (s : String) : strLt s s = false := by
  show strLtAux s.data s.data = false
  induction s.data with
  | nil => rfl
  | cons c cs ih => simp [strLtAux, ih]

theorem ukAllGt_lookup_none {k : String} {ks : UKeys} (h : ukAllGt k ks = true) :
    ukLookup ks k = none := by
  induction ks using ukeysRecAux with
  | h0 => rfl
  | h1 k' u rest ih =>
    simp only [ukAllGt, Bool.and_eq_true] at h
    have hne : k ≠ k' := by
      intro he
      rw [he, strLt_irrefl] at h
      exact absurd h.1 (by simp)
    simp [ukLookup, hne, ih h.2]

theorem toJsonKeys_lookup {ks : UKeys} {k : String} {j : JSONL}
    (hs : ukSorted ks = true) (hj : jobjLookup (toJsonKeys ks) k = some j) :
    ∃ v, ukLookup ks k = some v ∧ v.delegatedOf ≠ some true ∧ j = toJson v := by
  induction ks using ukeysRecAux generalizing j with
  | h0 => exact absurd hj (by simp [toJsonKeys, jobjLookup])
  | h1 k' u rest ih =>
    simp only [ukSorted, Bool.and_eq_true] at hs
    cases hdel : u.delegatedOf with
    | some b =>
      cases b with
      | true =>
        rw [toJsonKeys, hdel] at hj
        obtain ⟨v, hv, hd, he⟩ := ih hs.2 hj
        refine ⟨v, ?_, hd, he⟩
        have hne : k ≠ k' := by
          intro he'
          rw [he'] at hv
          rw [ukAllGt_lookup_none hs.1] at hv
          exact Option.noConfusion hv
        simp [ukLookup, hne, hv]
      | false =>
        rw [toJsonKeys, hdel] at hj
        by_cases hk : k = k'
        · rw [jobjLookup, if_pos hk] at hj
          refine ⟨u, by simp [ukLookup, hk], by simp [hdel], ?_⟩
          injection hj with h
          exact h.symm
        · rw [jobjLookup, if_neg hk] at hj
          obtain ⟨v, hv, hd, he⟩ := ih hs.2 hj
          exact ⟨v, by simp [ukLookup, hk, hv], hd, he⟩
    | none =>
      rw [toJsonKeys, hdel] at hj
      by_cases hk : k = k'
      · rw [jobjLookup, if_pos hk] at hj
        refine ⟨u, by simp [ukLookup, hk], by simp [hdel], ?_⟩
        injection hj with h
        exact h.symm
      · rw [jobjLookup, if_neg hk] at hj
        obtain ⟨v, hv, hd, he⟩ := ih hs.2 hj
        exact ⟨v, by simp [ukLookup, hk, hv], hd, he⟩

/-- C10: Client-facing JSON never exposes delegated subtrees.  For every
`Update` whose child map satisfies the `BTreeMap` invariant (ascending
keys), every entry of the keys object of `to_json` comes from a child that
is not marked `delegated = true`, encoded recursively by `to_json` — so
delegated children are omitted at every level. -/
theorem to_json_omits_delegated (u : UpdateL) (k : String) (j : JSONL)
    (hs : ukSorted ((u.keysOf).getD .nil) = true)
    (hj : jsonKeysLookup (toJson u) k = some j) :
    ∃ v, updateChild u k = some v ∧ v.delegatedOf ≠ some true ∧ j = toJson v := by
  cases u with
  | mk vb o nw keys d =>
    cases keys with
    | none => exact absurd hj (by simp [toJson, jsonKeysLookup])
    | some ks =>
      simp only [UpdateL.keysOf, Option.getD] at hs
      rw [toJson.eq_def] at hj
      simp only [jsonKeysLookup] at hj
      obtain ⟨v, hv, hd, he⟩ := toJsonKeys_lookup hs hj
      exact ⟨v, by simpa [updateChild, UpdateL.keysOf] using hv, hd, he⟩

/-- Witness for C10 at a concrete input: an update with a delegated child
`"d"` and a plain child `"x"`; looking up `"x"` in the JSON keys object
yields the encoding of the `"x"` child. -/
theorem to_json_omits_delegated_witness :
    ∃ v, updateChild (.mk none none none
        (some (.cons "d" (.mk none none none none (some true))
          (.cons "x" (.mk (some true) none (some (.u64 7)) none none) .nil))) none) "x" = some v ∧
      v.delegatedOf ≠ some true ∧
      JSONL.arr (.cons .null (.cons (.bool true) (.cons (.u64 7) .nil))) = toJson v :=
  to_json_omits_delegated
    (.mk none none none
      (some (.cons "d" (.mk none none none none (some true))
        (.cons "x" (.mk (some true) none (some (.u64 7)) none none) .nil))) none)
    "x" (JSONL.arr (.cons .null (.cons (.bool true) (.cons (.u64 7) .nil))))
    (by decide) (by rfl)

/-! ## C3 -/

theorem mvalid_requests : ∀ (n : Nat) (s : MState), mvalid s (List.replicate n .request)
  | 0, _ => trivial
  | n + 1, s => ⟨fun h => absurd h (by decide), mvalid_requests n (mstep s .request)⟩

/-- C3 counterexample: 801 load requests from the initial state are all
served immediately (the trace is valid: it contains no hibernation), and
the loaded count reaches 801, exceeding `MAX_LOADED_HARD = 800`. -/
theorem mrun_requests_count : ∀ (n : Nat) (s : MState),
    s.loaded + n ≤ MAX_LOADED_HARD + 1 →
    (mrun s (List.replicate n .request)).loaded = s.loaded + n := by
  intro n
  induction n with
  | zero => intro s _; simp [List.replicate, mrun]
  | succ n ih =>
    intro s h
    have hs : ¬ s.loaded > MAX_LOADED_HARD := by
      simp only [MAX_LOADED_HARD] at *
      omega
    simp only [List.replicate_succ, mrun, mstep, if_neg hs]
    rw [ih ⟨s.loaded + 1, s.requesting_load⟩
      (by show s.loaded + 1 + n ≤ _; simp only [MAX_LOADED_HARD] at *; omega)]
    show s.loaded + 1 + n = s.loaded + (n + 1)
    omega

/-- C3 counterexample: 801 load requests from the initial state are all
served immediately (the trace is valid: it contains no hibernation), and
the loaded count reaches 801, exceeding `MAX_LOADED_HARD = 800`. -/
theorem load_admission_exceeds_hard :
    mvalid minit (List.replicate 801 .request) ∧
    (mrun minit (List.replicate 801 .request)).loaded = 801 ∧
    ¬ (mrun minit (List.replicate 801 .request)).loaded ≤ MAX_LOADED_HARD := by
  refine ⟨mvalid_requests 801 minit, ?_, ?_⟩
  · exact mrun_requests_count 801 minit (by decide)
  · rw [mrun_requests_count 801 minit (by decide)]
    decide

/-- C3 (amended): a requesting zone is served immediately iff at most
`MAX_LOADED_HARD` (800) zones are loaded — i.e. the queueing test is
`loaded > 800`, not `loaded ≥ 800` — otherwise it joins the FIFO queue;
consequently, along every valid event sequence the loaded count never
exceeds `MAX_LOADED_HARD + 1 = 801`. -/
theorem load_admission_bound :
    (∀ s : MState, s.loaded ≤ MAX_LOADED_HARD →
      mstep s .request = ⟨s.loaded + 1, s.requesting_load⟩) ∧
    (∀ s : MState, MAX_LOADED_HARD < s.loaded →
      mstep s .request = ⟨s.loaded, s.requesting_load + 1⟩) ∧
    (∀ (es : List MEvent) (s : MState), mvalid s es →
      s.loaded ≤ MAX_LOADED_HARD + 1 → (mrun s es).loaded ≤ MAX_LOADED_HARD + 1) := by
  refine ⟨?_, ?_, ?_⟩
  · intro s h
    simp [mstep, Nat.not_lt.mpr h]
  · intro s h
    simp [mstep, h]
  · intro es
    induction es with
    | nil => intro s _ h; exact h
    | cons e es ih =>
      intro s hv hb
      obtain ⟨hv1, hv2⟩ := hv
      refine ih (mstep s e) hv2 ?_
      cases e with
      | request =>
        simp only [mstep]
        split
        · exact hb
        · rename_i hq
          simp only [MAX_LOADED_HARD] at *
          omega
      | hibernated =>
        simp only [mstep]
        split <;> simp only [MAX_LOADED_HARD] at * <;> omega

/-- Witness for C3 (amended) at concrete inputs. -/
theorem load_admission_bound_witness :
    mstep ⟨5, 0⟩ .request = ⟨6, 0⟩ ∧
    mstep ⟨801, 2⟩ .request = ⟨801, 3⟩ ∧
    (mrun minit [.request, .hibernated]).loaded ≤ MAX_LOADED_HARD + 1 :=
  ⟨load_admission_bound.1 ⟨5, 0⟩ (by decide),
   load_admission_bound.2.1 ⟨801, 2⟩ (by decide),
   load_admission_bound.2.2 [.request, .hibernated] minit (by decide) (by decide)⟩

/-! ## C2 -/

/-- C2: the simple write/read round-trip FAILS on this code.  Writing `42`
at path `["a","b"]` (via `expand_from` at timestamp `1000`) into an empty
root-zone tree under permanent inherited visibility leaves the tree with
an empty child map — the intermediate nodes created by `expand_from` carry
`Vis (0,0)`, so the new leaf is invisible under the `descend` minimum rule,
its update is a no-op, and the vacant-entry logic discards the subtree; the
merge reports no update and no externals, and the subsequent read of
`["a","b"]` returns no update at all instead of a visible `42`. -/
theorem write_read_roundtrip_fails :
    (mergeTop NodeL.default (expand_from ["a", "b"] (.u64 42) 1000)
        Vis.permanent Vis.permanent).1 = .mk ⟨0, 0⟩ .null (some .nil) 0 ∧
    (mergeTop NodeL.default (expand_from ["a", "b"] (.u64 42) 1000)
        Vis.permanent Vis.permanent).2.2.1 = none ∧
    (mergeTop NodeL.default (expand_from ["a", "b"] (.u64 42) 1000)
        Vis.permanent Vis.permanent).2.2.2 = [] ∧
    readTop (.mk ⟨0, 0⟩ .null (some .nil) 0) Vis.permanent ["a", "b"] = (none, []) :=
  ⟨rfl, rfl, rfl, rfl⟩

/-! ## C5 -/

theorem mergeFinish_delegated (stack : List String) (n : NodeL) (u : UpdateL)
    (exts : List External) (v : Vis) :
    (mergeFinish stack n u exts v).1.delegated = n.delegated := by
  cases n with
  | mk nv nval nkeys nd =>
    simp only [mergeFinish, NodeL.delegated]
    by_cases hcond : stack.length > 0 ∧ nd % 2 = 1
    · rw [if_pos hcond]
      simp [NodeL.afterDetach, NodeL.delegated, NodeL.vis]
    · rw [if_neg hcond]

theorem mergeFinish_vis (stack : List String) (n : NodeL) (u : UpdateL)
    (exts : List External) (v : Vis) :
    (mergeFinish stack n u exts v).1.vis = n.vis := by
  cases n with
  | mk nv nval nkeys nd =>
    simp only [mergeFinish, NodeL.delegated, NodeL.vis]
    by_cases hcond : stack.length > 0 ∧ nd % 2 = 1
    · rw [if_pos hcond]
      simp [NodeL.afterDetach, NodeL.delegated, NodeL.vis]
    · rw [if_neg hcond]

theorem mergeFinish_spec (stack : List String) (n : NodeL) (u : UpdateL)
    (exts : List External) (v : Vis) (hs : stack ≠ [])
    (hd : (mergeFinish stack n u exts v).1.delegated % 2 = 1) :
    (mergeFinish stack n u exts v).1.value = .null ∧
    (mergeFinish stack n u exts v).1.keys = none ∧
    (mergeFinish stack n u exts v).2.1 = none ∧
    (mergeFinish stack n u exts v).2.2 = exts ++ [⟨stack, v, n.detached⟩] ∧
    n.detached.vis = (mergeFinish stack n u exts v).1.vis ∧
    n.detached.delegated = (mergeFinish stack n u exts v).1.delegated := by
  rw [mergeFinish_delegated] at hd
  rw [mergeFinish_vis, mergeFinish_delegated]
  cases n with
  | mk nv nval nkeys nd =>
    simp only [NodeL.delegated] at hd
    have hcond : stack.length > 0 ∧ nd % 2 = 1 := ⟨List.length_pos.mpr hs, hd⟩
    simp [mergeFinish, if_pos hcond, NodeL.afterDetach, NodeL.detached,
      NodeL.value, NodeL.keys, NodeL.vis, NodeL.delegated, UpdateL.is_noop]

/-- The delegation handoff property stated over the result tuple that every
merge assembles (`(finish.1, retainedDiff, finish.2.1, finish.2.2)`). -/
theorem mergeFinish_handoff (stack : List String) (n' : NodeL) (u' : UpdateL)
    (e' : List External) (v' : Vis) (d2 : NodeL) (hs : stack ≠ [])
    (hd : ((mergeFinish stack n' u' e' v').1, d2, (mergeFinish stack n' u' e' v').2.1,
        (mergeFinish stack n' u' e' v').2.2).1.delegated % 2 = 1) :
    ((mergeFinish stack n' u' e' v').1, d2, (mergeFinish stack n' u' e' v').2.1,
        (mergeFinish stack n' u' e' v').2.2).1.value = .null ∧
    ((mergeFinish stack n' u' e' v').1, d2, (mergeFinish stack n' u' e' v').2.1,
        (mergeFinish stack n' u' e' v').2.2).1.keys = none ∧
    ((mergeFinish stack n' u' e' v').1, d2, (mergeFinish stack n' u' e' v').2.1,
        (mergeFinish stack n' u' e' v').2.2).2.2.1 = none ∧
    ∃ pre detached parentVis,
      ((mergeFinish stack n' u' e' v').1, d2, (mergeFinish stack n' u' e' v').2.1,
          (mergeFinish stack n' u' e' v').2.2).2.2.2 =
        pre ++ [⟨stack, parentVis, detached⟩] ∧
      detached.vis = ((mergeFinish stack n' u' e' v').1, d2,
          (mergeFinish stack n' u' e' v').2.1,
          (mergeFinish stack n' u' e' v').2.2).1.vis ∧
      detached.delegated = ((mergeFinish stack n' u' e' v').1, d2,
          (mergeFinish stack n' u' e' v').2.1,
          (mergeFinish stack n' u' e' v').2.2).1.delegated := by
  simp only at hd ⊢
  obtain ⟨h1, h2, h3, h4, h5, h6⟩ := mergeFinish_spec stack n' u' e' v' hs hd
  exact ⟨h1, h2, h3, e', n'.detached, v', h4, h5, h6⟩

/-- C5 (amended): Delegation handoff.  For every merge in which a node
below the zone root ends with its delegated bit set, the node's local
`value` and `children` are detached into an `External{path, parent_vis,
node}` appended to the externals list, but its `vis` (and `delegated`) are
*copied*, not removed — the local node keeps them; and although the update
for the node is cleared down to `delegated = true`, `Update::is_noop`
ignores the `delegated` field, so the merge reports *no* update (`None`)
for that node. -/
theorem delegation_handoff (stack : List String) (node diff : NodeL) (vo vn : Vis)
    (hs : stack ≠ []) (hd : (mergeInner stack node diff vo vn).1.delegated % 2 = 1) :
    (mergeInner stack node diff vo vn).1.value = .null ∧
    (mergeInner stack node diff vo vn).1.keys = none ∧
    (mergeInner stack node diff vo vn).2.2.1 = none ∧
    ∃ pre detached parentVis,
      (mergeInner stack node diff vo vn).2.2.2 = pre ++ [⟨stack, parentVis, detached⟩] ∧
      detached.vis = (mergeInner stack node diff vo vn).1.vis ∧
      detached.delegated = (mergeInner stack node diff vo vn).1.delegated := by
  cases node with
  | mk nvis nval nkeys ndel =>
    cases diff with
    | mk dvis dval dkeys ddel =>
      cases nkeys <;> cases dkeys <;>
        · simp only [mergeInner] at hd ⊢
          exact mergeFinish_handoff stack _ _ _ _ _ hs hd

/-- Witness for C5 (amended) at a concrete input: a node holding value
`42` at `vis (5,0)` receiving a delegation mark below the zone root. -/
theorem delegation_handoff_witness :
    (mergeInner ["k"] (.mk ⟨5, 0⟩ (.u64 42) none 0) (NodeL.delegate 8)
        ⟨0, 0⟩ ⟨0, 0⟩).1.value = .null ∧
    (mergeInner ["k"] (.mk ⟨5, 0⟩ (.u64 42) none 0) (NodeL.delegate 8)
        ⟨0, 0⟩ ⟨0, 0⟩).1.keys = none ∧
    (mergeInner ["k"] (.mk ⟨5, 0⟩ (.u64 42) none 0) (NodeL.delegate 8)
        ⟨0, 0⟩ ⟨0, 0⟩).2.2.1 = none ∧
    ∃ pre detached parentVis,
      (mergeInner ["k"] (.mk ⟨5, 0⟩ (.u64 42) none 0) (NodeL.delegate 8)
          ⟨0, 0⟩ ⟨0, 0⟩).2.2.2 = pre ++ [⟨["k"], parentVis, detached⟩] ∧
      detached.vis = (mergeInner ["k"] (.mk ⟨5, 0⟩ (.u64 42) none 0) (NodeL.delegate 8)
          ⟨0, 0⟩ ⟨0, 0⟩).1.vis ∧
      detached.delegated = (mergeInner ["k"] (.mk ⟨5, 0⟩ (.u64 42) none 0) (NodeL.delegate 8)
          ⟨0, 0⟩ ⟨0, 0⟩).1.delegated :=
  delegation_handoff ["k"] (.mk ⟨5, 0⟩ (.u64 42) none 0) (NodeL.delegate 8)
    ⟨0, 0⟩ ⟨0, 0⟩ (by decide) (by rfl)

/-- C5 counterexample to the claim as stated: merging a diff that sets the
delegated bit on child `"k"` of the zone root.  After the merge the local
node at `"k"` *retains* its `vis = (5,0)` — the visibility is copied into
the `External`, not removed from the local node — and the merge returns
*no* update for the tree (the `delegated = true` update is discarded as a
no-op), contradicting "vis […] detached (removed from the local node)"
and "the update for that node carries only delegated = true". -/
theorem delegation_handoff_claim_false :
    (mergeTop
        (.mk ⟨0, 0⟩ .null (some (.cons "k" (.mk ⟨5, 0⟩ (.u64 42) none 0) .nil)) 0)
        (.mk ⟨0, 0⟩ .null (some (.cons "k" (NodeL.delegate 8) .nil)) 0)
        Vis.permanent Vis.permanent).1 =
      .mk ⟨0, 0⟩ .null (some (.cons "k" (.mk ⟨5, 0⟩ .null none 9) .nil)) 0 ∧
    (mergeTop
        (.mk ⟨0, 0⟩ .null (some (.cons "k" (.mk ⟨5, 0⟩ (.u64 42) none 0) .nil)) 0)
        (.mk ⟨0, 0⟩ .null (some (.cons "k" (NodeL.delegate 8) .nil)) 0)
        Vis.permanent Vis.permanent).2.2.2 =
      [⟨["k"], ⟨0, 0⟩, .mk ⟨5, 0⟩ (.u64 42) none 9⟩] ∧
    (mergeTop
        (.mk ⟨0, 0⟩ .null (some (.cons "k" (.mk ⟨5, 0⟩ (.u64 42) none 0) .nil)) 0)
        (.mk ⟨0, 0⟩ .null (some (.cons "k" (NodeL.delegate 8) .nil)) 0)
        Vis.permanent Vis.permanent).2.2.1 = none ∧
    (Vis.mk 5 0 ≠ Vis.mk 0 0) :=
  ⟨rfl, rfl, rfl, by decide⟩

/-! ## C6 -/

/-- The retained diff of a propagate merge into a childless node is the
value/delete-step residue of its `Vis` (definitional unfolding). -/
theorem mergePropagate_diff_vis (stack : List String) (nvis : Vis) (nval : Value)
    (ndel : Nat) (dvis vo vn : Vis) :
    (mergePropagate stack (.mk nvis nval none ndel) dvis vo vn).2.1 =
      ⟨(mergeValueStep nvis nval dvis.updated .null).2.2.1,
       (mergeDeleteStep (mergeValueStep nvis nval dvis.updated .null).1 nvis.deleted
         (mergeValueStep nvis nval dvis.updated .null).2.1 dvis.deleted
         (mergeValueStep nvis nval dvis.updated .null).2.2.2.2.2).2.2.1⟩ := rfl

theorem mergeValueStep_updated_ge (nv : Vis) (nval : Value) (dU : Nat) (dval : Value) :
    nv.updated ≤ (mergeValueStep nv nval dU dval).1 := by
  simp only [mergeValueStep]
  split_ifs <;> simp <;> omega

theorem mergeDeleteStep_deleted_ge (nU nD : Nat) (nval : Value) (dD : Nat)
    (prop : Option Vis) : nD ≤ (mergeDeleteStep nU nD nval dD prop).1 := by
  simp only [mergeDeleteStep]
  split_ifs <;> simp <;> omega

theorem delegatedStep_ge (ndel ddel : Nat) :
    ndel ≤ (if ddel > 0 ∧ ddel > ndel then (ddel, ddel) else (ndel, 0)).1 := by
  split_ifs <;> simp <;> omega

/-- Monotonicity of the tracked node fields through `mergeFinish`. -/
theorem mergeFinish_tuple_mono (stack : List String) (n' : NodeL)
    (u' : UpdateL) (e' : List External) (v' : Vis) (x y z : Nat)
    (hx : x ≤ n'.vis.updated) (hy : y ≤ n'.vis.deleted) (hz : z ≤ n'.delegated) :
    x ≤ (mergeFinish stack n' u' e' v').1.vis.updated ∧
    y ≤ (mergeFinish stack n' u' e' v').1.vis.deleted ∧
    z ≤ (mergeFinish stack n' u' e' v').1.delegated := by
  rw [mergeFinish_vis, mergeFinish_delegated]
  exact ⟨hx, hy, hz⟩

/-- C6 (amended): `Vis::merge` takes the per-field maximum, and under the
merge the node each merge application (including every recursive
application to a child) is applied to has non-decreasing `vis.updated`,
`vis.deleted` and `delegated` fields.  (Per-path monotonicity over a whole
tree can fail: a delegation handoff detaches a subtree, and a diff that
also raises `delegated` to an even value — an un-delegation — can
re-create the detached path with smaller timestamps; see the
counterexample.) -/
theorem mergePropagate_root_mono :
    ∀ (stack : List String) (nvis : Vis) (nval : Value) (nkeys : Option NKeys)
      (ndel : Nat) (dvis vo vn : Vis),
      nvis.updated ≤ (mergePropagate stack (.mk nvis nval nkeys ndel) dvis vo vn).1.vis.updated ∧
      nvis.deleted ≤ (mergePropagate stack (.mk nvis nval nkeys ndel) dvis vo vn).1.vis.deleted ∧
      ndel ≤ (mergePropagate stack (.mk nvis nval nkeys ndel) dvis vo vn).1.delegated := by
  intro stack nvis nval nkeys ndel dvis vo vn
  cases nkeys with
  | none =>
    delta mergePropagate
    exact mergeFinish_tuple_mono stack _ _ _ _ _ _ _
      (mergeValueStep_updated_ge nvis nval dvis.updated .null)
      (mergeDeleteStep_deleted_ge _ nvis.deleted _ dvis.deleted _)
      (Nat.le_refl ndel)
  | some ks =>
    delta mergePropagate
    exact mergeFinish_tuple_mono stack _ _ _ _ _ _ _
      (mergeValueStep_updated_ge nvis nval dvis.updated .null)
      (mergeDeleteStep_deleted_ge _ nvis.deleted _ dvis.deleted _)
      (Nat.le_refl ndel)

theorem vis_merge_max_and_monotone :
    (∀ a b : Vis, Vis.mergeV a b = ⟨max a.updated b.updated, max a.deleted b.deleted⟩) ∧
    (∀ (stack : List String) (node diff : NodeL) (vo vn : Vis),
      node.vis.updated ≤ (mergeInner stack node diff vo vn).1.vis.updated ∧
      node.vis.deleted ≤ (mergeInner stack node diff vo vn).1.vis.deleted ∧
      node.delegated ≤ (mergeInner stack node diff vo vn).1.delegated) ∧
    (∀ (stack : List String) (nvis : Vis) (nval : Value) (nkeys : Option NKeys)
      (ndel : Nat) (dvis vo vn : Vis),
      nvis.updated ≤ (mergePropagate stack (.mk nvis nval nkeys ndel) dvis vo vn).1.vis.updated ∧
      nvis.deleted ≤ (mergePropagate stack (.mk nvis nval nkeys ndel) dvis vo vn).1.vis.deleted ∧
      ndel ≤ (mergePropagate stack (.mk nvis nval nkeys ndel) dvis vo vn).1.delegated) := by
  refine ⟨?_, ?_, ?_⟩
  · intro a b
    simp only [Vis.mergeV, Nat.max_def]
    congr 1 <;> split_ifs <;> omega
  · intro stack node diff vo vn
    cases node with
    | mk nvis nval nkeys ndel =>
      cases diff with
      | mk dvis dval dkeys ddel =>
        cases nkeys <;> cases dkeys <;>
          · simp only [mergeInner]
            exact mergeFinish_tuple_mono stack _ _ _ _ _ _ _
              (mergeValueStep_updated_ge nvis nval dvis.updated dval)
              (mergeDeleteStep_deleted_ge _ nvis.deleted _ dvis.deleted _)
              (delegatedStep_ge ndel ddel)
  · exact mergePropagate_root_mono

/-- C6 counterexample to per-path monotonicity as stated: the node at path
`["k","g"]` has `vis.updated = 100` before the merge and `vis.updated = 2`
after it.  The diff uncloaks the root (propagate pass), which hands the
delegated child `"k"` off to an `External` (detaching `g`), and then
raises `k.delegated` to the even value 16 (an un-delegation) while
re-creating `"g"` from the diff with the smaller timestamp 2. -/
theorem per_path_monotonicity_fails :
    (lookupN
        (.mk ⟨0, 0⟩ .null
          (some (.cons "k"
            (.mk ⟨50, 0⟩ .null (some (.cons "g" (.mk ⟨100, 0⟩ (.u64 7) none 0) .nil)) 9)
            .nil)) 0)
        ["k", "g"]).map NodeL.vis = some ⟨100, 0⟩ ∧
    (lookupN
        (mergeTop
          (.mk ⟨0, 0⟩ .null
            (some (.cons "k"
              (.mk ⟨50, 0⟩ .null (some (.cons "g" (.mk ⟨100, 0⟩ (.u64 7) none 0) .nil)) 9)
              .nil)) 0)
          (.mk ⟨1, 0⟩ .null
            (some (.cons "k"
              (.mk ⟨0, 0⟩ .null (some (.cons "g" (.mk ⟨2, 0⟩ (.u64 5) none 0) .nil)) 16)
              .nil)) 0)
          Vis.permanent Vis.permanent).1
        ["k", "g"]).map NodeL.vis = some ⟨2, 0⟩ ∧
    ¬ (100 ≤ 2) :=
  ⟨rfl, rfl, by decide⟩

/-! ## C4 -/

/-- Erasing delegation timestamps commutes with ordered-map insertion. -/
theorem eraseTsKeys_nkInsert (ks : NKeys) (k : String) (c : NodeL) :
    eraseTsKeys (nkInsert ks k c) = nkInsert (eraseTsKeys ks) k (eraseTs c) := by
  induction ks using nkeysRecAux with
  | h0 => rfl
  | h1 k' c' rest ih =>
    simp only [nkInsert, eraseTsKeys]
    split_ifs <;> simp only [eraseTsKeys, ih]

/-- Erasing delegation timestamps commutes with `Node::add_child`. -/
theorem eraseTs_add_child (n : NodeL) (k : String) (c : NodeL) :
    eraseTs (n.add_child k c) = (eraseTs n).add_child k (eraseTs c) := by
  cases n with
  | mk v val keys d =>
    cases keys <;>
      simp only [NodeL.add_child, eraseTs, eraseTsKeys_nkInsert, eraseTsKeys, nkInsert, Option.getD]

/-- A delegation mark erases to the canonical mark `Node::delegate(0)`,
whatever timestamp it was created at. -/
theorem eraseTs_delegate (t : Nat) : eraseTs (NodeL.delegate t) = NodeL.delegate 0 := by
  simp only [NodeL.delegate, eraseTs]
  congr 1
  omega

/-- Erasing delegation timestamps preserves `Node::is_noop` (which ignores
`delegated`). -/
theorem is_noop_eraseTs (a : NodeL) : (eraseTs a).is_noop = a.is_noop := by
  cases a with
  | mk v val keys d => cases keys <;> rfl

/-- Nodes with the same timestamp-erasure agree on `Node::is_noop`. -/
theorem is_noop_eq_of_eraseTs {a b : NodeL} (h : eraseTs a = eraseTs b) :
    a.is_noop = b.is_noop := by
  rw [← is_noop_eraseTs a, ← is_noop_eraseTs b, h]

/-- The balancing loop of `check_node` is deterministic modulo the clock:
run under two clocks, from accumulator nodes with the same
timestamp-erasure, it frees the same total size and produces delegation
nodes with the same timestamp-erasure. -/
theorem delegateLoop_det (c1 c2 : Nat → Nat) :
    ∀ (fuel : Nat) (heap : List (Nat × String)) (total : Nat) (dn1 dn2 : NodeL)
      (i1 i2 : Nat), eraseTs dn1 = eraseTs dn2 →
      (delegateLoop c1 fuel heap total dn1 i1).1 = (delegateLoop c2 fuel heap total dn2 i2).1 ∧
      eraseTs (delegateLoop c1 fuel heap total dn1 i1).2.1 =
        eraseTs (delegateLoop c2 fuel heap total dn2 i2).2.1 := by
  intro fuel
  induction fuel with
  | zero => intro heap total dn1 dn2 i1 i2 h; exact ⟨rfl, h⟩
  | succ fuel ih =>
    intro heap total dn1 dn2 i1 i2 h
    cases heap with
    | nil =>
      simp only [delegateLoop]
      split_ifs <;> exact ⟨rfl, h⟩
    | cons hd tl =>
      simp only [delegateLoop]
      split_ifs with ht
      · exact ih _ _ _ _ _ _ (by
          rw [eraseTs_add_child, eraseTs_add_child, h, eraseTs_delegate, eraseTs_delegate])
      · exact ⟨rfl, h⟩

mutual
/-- `check_node` is deterministic modulo the clock: under two clocks (and
clock positions) it reports the same subtree size and delegation nodes
with the same timestamp-erasure. -/
theorem check_node_det (c1 c2 : Nat → Nat) (n : NodeL) : ∀ (i1 i2 : Nat),
    (check_node c1 n i1).1 = (check_node c2 n i2).1 ∧
    Option.map eraseTs (check_node c1 n i1).2.1 =
      Option.map eraseTs (check_node c2 n i2).2.1 := by
  intro i1 i2
  cases n with
  | mk vis val keys del =>
    cases keys with
    | none =>
      by_cases hbig : NodeL.byte_size (.mk vis val none del) > 32768
      · simp only [check_node]
        rw [if_pos hbig, if_pos hbig]
        exact ⟨rfl, rfl⟩
      · simp only [check_node]
        rw [if_neg hbig, if_neg hbig]
        exact ⟨rfl, rfl⟩
    | some ks =>
      by_cases hbig : NodeL.byte_size (.mk vis val (some ks) del) > 32768
      · simp only [check_node]
        rw [if_pos hbig, if_pos hbig]
        exact ⟨rfl, rfl⟩
      · simp only [check_node]
        rw [if_neg hbig, if_neg hbig]
        have hc := checkChildren_det c1 c2 ks NodeL.default NodeL.default i1 i2 rfl
        rw [hc.2.1, hc.2.2]
        have hl := delegateLoop_det c1 c2
          (checkChildren c2 ks NodeL.default i2).2.2.1.length
          (checkChildren c2 ks NodeL.default i2).2.2.1
          (NodeL.byte_size (.mk vis val (some ks) del) + (checkChildren c2 ks NodeL.default i2).2.1)
          (checkChildren c1 ks NodeL.default i1).1
          (checkChildren c2 ks NodeL.default i2).1
          (checkChildren c1 ks NodeL.default i1).2.2.2
          (checkChildren c2 ks NodeL.default i2).2.2.2
          hc.1
        refine ⟨hl.1, ?_⟩
        rw [is_noop_eq_of_eraseTs hl.2]
        split_ifs with hn
        · rfl
        · simp only [Option.map_some', hl.2]
termination_by sizeN n
decreasing_by all_goals (simp only [sizeN, sizeK]; omega)

/-- The child fold of `check_node` is deterministic modulo the clock: from
accumulators with the same timestamp-erasure it produces accumulators with
the same erasure, the same summed child size, and the same heap. -/
theorem checkChildren_det (c1 c2 : Nat → Nat) (ks : NKeys) :
    ∀ (dn1 dn2 : NodeL) (i1 i2 : Nat), eraseTs dn1 = eraseTs dn2 →
      eraseTs (checkChildren c1 ks dn1 i1).1 = eraseTs (checkChildren c2 ks dn2 i2).1 ∧
      (checkChildren c1 ks dn1 i1).2.1 = (checkChildren c2 ks dn2 i2).2.1 ∧
      (checkChildren c1 ks dn1 i1).2.2.1 = (checkChildren c2 ks dn2 i2).2.2.1 := by
  intro dn1 dn2 i1 i2 h
  cases ks with
  | nil => exact ⟨h, rfl, rfl⟩
  | cons k child rest =>
    have hchild := check_node_det c1 c2 child i1 i2
    simp only [checkChildren]
    rcases hc1 : (check_node c1 child i1).2.1 with _ | cd1 <;>
      rcases hc2 : (check_node c2 child i2).2.1 with _ | cd2 <;>
      rw [hc1, hc2] at hchild <;>
      simp only [Option.map_some', Option.map_none'] at hchild
    · have hrest := checkChildren_det c1 c2 rest dn1 dn2
        (check_node c1 child i1).2.2 (check_node c2 child i2).2.2 h
      rw [hchild.1, hrest.1, hrest.2.1, hrest.2.2]
      exact ⟨rfl, rfl, rfl⟩
    · exact absurd hchild.2 (by simp)
    · exact absurd hchild.2 (by simp)
    · have hdn : eraseTs (dn1.add_child k cd1) = eraseTs (dn2.add_child k cd2) := by
        rw [eraseTs_add_child, eraseTs_add_child, h, Option.some_inj.mp hchild.2]
      have hrest := checkChildren_det c1 c2 rest (dn1.add_child k cd1) (dn2.add_child k cd2)
        (check_node c1 child i1).2.2 (check_node c2 child i2).2.2 hdn
      rw [hchild.1, hrest.1, hrest.2.1, hrest.2.2]
      exact ⟨rfl, rfl, rfl⟩
termination_by sizeK ks
decreasing_by all_goals (simp only [sizeN, sizeK]; omega)
end

/-- A no-op `mergeFinish`: at the zone root (`stack` empty) no delegation
handoff happens and the node is returned unchanged. -/
theorem mergeFinish_nil (n : NodeL) (u : UpdateL) (e : List External) (v : Vis) :
    (mergeFinish [] n u e v).1 = n := by
  simp [mergeFinish]

/-- Characterization of a top-level merge of childless nodes: `vis` is the
per-field maximum, `delegated` is the maximum, and the value follows
`childlessVal`. -/
theorem mergeTop_childless (vo vn nv : Vis) (nval : Value) (nd : Nat)
    (dv : Vis) (dval : Value) (dd : Nat) :
    (mergeTop (.mk nv nval none nd) (.mk dv dval none dd) vo vn).1 =
      .mk ⟨max nv.updated dv.updated, max nv.deleted dv.deleted⟩
        (childlessVal nv nval dv dval) none (max nd dd) := by
  simp only [mergeTop, mergeInner]
  rw [mergeFinish_nil]
  simp only [mergeValueStep, mergeDeleteStep, childlessVal]
  split_ifs <;> simp_all <;> omega

/-- `Vis::descend` is pointwise `min` on `updated` and `max` on
`deleted`. -/
theorem descend_min (self child : Vis) :
    self.descend child = ⟨min self.updated child.updated, max self.deleted child.deleted⟩ := by
  simp only [Vis.descend]
  congr 1 <;> split_ifs <;> omega

/-- The merged `Vis` of two childless diffs applied in either order is the
same (per-field maxima commute). -/
theorem vis_eq_comm (av bv cv : Vis) :
    (⟨max (max av.updated bv.updated) cv.updated,
      max (max av.deleted bv.deleted) cv.deleted⟩ : Vis) =
    ⟨max (max av.updated cv.updated) bv.updated,
      max (max av.deleted cv.deleted) bv.deleted⟩ := by
  rw [Vis.mk.injEq]
  constructor <;> omega

/-- Order-independence of the childless merged value on visible nodes,
provided the two diffs do not carry the same `updated` timestamp with
different values. -/
theorem childlessVal_comm (av bv cv : Vis) (aval bval cval : Value) (anc : Vis)
    (hvis : (anc.descend ⟨max (max av.updated bv.updated) cv.updated,
      max (max av.deleted bv.deleted) cv.deleted⟩).is_visible = true)
    (hne : bv.updated ≠ cv.updated ∨ bval = cval) :
    childlessVal ⟨max av.updated bv.updated, max av.deleted bv.deleted⟩
        (childlessVal av aval bv bval) cv cval =
      childlessVal ⟨max av.updated cv.updated, max av.deleted cv.deleted⟩
        (childlessVal av aval cv cval) bv bval := by
  rw [descend_min] at hvis
  simp only [Vis.is_visible, decide_eq_true_eq] at hvis
  simp only [childlessVal]
  rcases hne with hne | hne <;>
    · split_ifs <;> first | rfl | omega | (exact hne)

/-- C1 counterexample: merge commutativity on the visible state fails in
two independent ways.  (1) On an equal-timestamp conflict: starting from
the default node, the childless diffs `(updated 5, 1)` and
`(updated 5, 2)` leave the first-applied value in place (the tie rule
retains the current value), so the two orders yield different visible
values (1 versus 2) at the same, visible, `vis`.  (2) On nodes with
children, with no equal-timestamp conflict anywhere: into a visible root
`(updated 1)`, a delegation-mark diff at child `"k"`
(`Node::delegate(8)`, `vis (0,0)`) and a value-write diff at `"k"`
(`updated 5`, value 7) are order-dependent — mark first: the handoff's
delegated-only update is a no-op, so the vacant-entry logic drops the
marked child and the later write recreates `"k"` visible with value 7 and
`delegated 0`; write first: the later mark finds the child occupied,
raises `delegated` to 9 and hands the value off to an `External`, leaving
`"k"` visible with value null.  The mark diff's child has
`vis.updated = 0 ≠ 5` and its only equal-timestamp meeting (0 = 0 against
the fresh default child) carries equal values (null), so no tie conflict
is involved. -/
theorem merge_commutativity_fails :
    (visValue Vis.permanent
        (mergeTop (mergeTop NodeL.default (.mk ⟨5, 0⟩ (.u64 1) none 0) Vis.permanent Vis.permanent).1
          (.mk ⟨5, 0⟩ (.u64 2) none 0) Vis.permanent Vis.permanent).1 = some (.u64 1) ∧
      visValue Vis.permanent
        (mergeTop (mergeTop NodeL.default (.mk ⟨5, 0⟩ (.u64 2) none 0) Vis.permanent Vis.permanent).1
          (.mk ⟨5, 0⟩ (.u64 1) none 0) Vis.permanent Vis.permanent).1 = some (.u64 2) ∧
      (some (Value.u64 1) : Option Value) ≠ some (Value.u64 2)) ∧
    (((lookupN (mergeTop
        (mergeTop (.mk ⟨1, 0⟩ .null none 0)
          (.mk ⟨0, 0⟩ .null (some (.cons "k" (NodeL.delegate 8) .nil)) 0)
          Vis.permanent Vis.permanent).1
        (.mk ⟨0, 0⟩ .null (some (.cons "k" (.mk ⟨5, 0⟩ (.u64 7) none 0) .nil)) 0)
        Vis.permanent Vis.permanent).1 ["k"]).map (visValue ⟨1, 0⟩)) = some (some (.u64 7)) ∧
      ((lookupN (mergeTop
        (mergeTop (.mk ⟨1, 0⟩ .null none 0)
          (.mk ⟨0, 0⟩ .null (some (.cons "k" (.mk ⟨5, 0⟩ (.u64 7) none 0) .nil)) 0)
          Vis.permanent Vis.permanent).1
        (.mk ⟨0, 0⟩ .null (some (.cons "k" (NodeL.delegate 8) .nil)) 0)
        Vis.permanent Vis.permanent).1 ["k"]).map (visValue ⟨1, 0⟩)) = some (some .null) ∧
      ((lookupN (mergeTop
        (mergeTop (.mk ⟨1, 0⟩ .null none 0)
          (.mk ⟨0, 0⟩ .null (some (.cons "k" (NodeL.delegate 8) .nil)) 0)
          Vis.permanent Vis.permanent).1
        (.mk ⟨0, 0⟩ .null (some (.cons "k" (.mk ⟨5, 0⟩ (.u64 7) none 0) .nil)) 0)
        Vis.permanent Vis.permanent).1 ["k"]).map NodeL.delegated) = some 0 ∧
      ((lookupN (mergeTop
        (mergeTop (.mk ⟨1, 0⟩ .null none 0)
          (.mk ⟨0, 0⟩ .null (some (.cons "k" (.mk ⟨5, 0⟩ (.u64 7) none 0) .nil)) 0)
          Vis.permanent Vis.permanent).1
        (.mk ⟨0, 0⟩ .null (some (.cons "k" (NodeL.delegate 8) .nil)) 0)
        Vis.permanent Vis.permanent).1 ["k"]).map NodeL.delegated) = some 9 ∧
      (some (some (Value.u64 7)) : Option (Option Value)) ≠ some (some .null)) :=
  ⟨⟨rfl, rfl, by decide⟩, rfl, rfl, rfl, rfl, by decide⟩

/-- C1 (amended): for childless nodes, merging diffs `b` then `c` or `c`
then `b` into `a` yields the same `vis` (per-field maximum), the same
`delegated`, the same effective visibility under any ancestor, and — as
long as `b` and `c` do not carry the same `updated` timestamp with
different values — the same visible value.  Both restrictions are forced
by the counterexample: with an equal-timestamp conflict the tie rule
retains whichever value arrived first, and on nodes with children merges
are order-dependent even without any tie, because a delegation handoff's
update is a no-op (so a mark arriving at a vacant child is dropped) while
the same mark arriving at an occupied child detaches its value. -/
theorem merge_commutative_childless (a b c : NodeL) (vo vn anc : Vis)
    (ha : a.keys = none) (hb : b.keys = none) (hc : c.keys = none)
    (hne : b.vis.updated ≠ c.vis.updated ∨ b.value = c.value) :
    (mergeTop (mergeTop a b vo vn).1 c vo vn).1.vis
        = (mergeTop (mergeTop a c vo vn).1 b vo vn).1.vis ∧
    (mergeTop (mergeTop a b vo vn).1 c vo vn).1.delegated
        = (mergeTop (mergeTop a c vo vn).1 b vo vn).1.delegated ∧
    effVis anc (mergeTop (mergeTop a b vo vn).1 c vo vn).1
        = effVis anc (mergeTop (mergeTop a c vo vn).1 b vo vn).1 ∧
    visValue anc (mergeTop (mergeTop a b vo vn).1 c vo vn).1
        = visValue anc (mergeTop (mergeTop a c vo vn).1 b vo vn).1 := by
  cases a with
  | mk av aval ak ad =>
    cases b with
    | mk bv bval bk bd =>
      cases c with
      | mk cv cval ck cd =>
        simp only [NodeL.keys, NodeL.vis, NodeL.value] at ha hb hc hne
        subst ha; subst hb; subst hc
        rw [mergeTop_childless, mergeTop_childless, mergeTop_childless, mergeTop_childless]
        have hv := vis_eq_comm av bv cv
        have hdel : max (max ad bd) cd = max (max ad cd) bd := by omega
        refine ⟨?_, ?_, ?_, ?_⟩
        · simp only [NodeL.vis]
          exact hv
        · simp only [NodeL.delegated]
          exact hdel
        · simp only [effVis, NodeL.vis]
          rw [hv]
        · simp only [visValue, NodeL.vis, NodeL.value]
          rw [hv]
          split_ifs with hviz
          · rw [Option.some_inj]
            refine childlessVal_comm av bv cv aval bval cval anc ?_ hne
            rw [hv]
            exact hviz
          · rfl

/-- Witness for the childless commutativity theorem at a concrete input:
`a = (updated 3 deleted 1, 7, delegated 0)`, `b = (updated 5, 1,
delegated 2)`, `c = (updated 9, 2, delegated 4)` under permanent
visibility. -/
theorem merge_commutative_childless_witness :
    ((NodeL.mk ⟨3, 1⟩ (.u64 7) none 0).keys = none) ∧
    ((NodeL.mk ⟨5, 0⟩ (.u64 1) none 2).keys = none) ∧
    ((NodeL.mk ⟨9, 0⟩ (.u64 2) none 4).keys = none) ∧
    ((NodeL.mk ⟨5, 0⟩ (.u64 1) none 2).vis.updated
      ≠ (NodeL.mk ⟨9, 0⟩ (.u64 2) none 4).vis.updated) ∧
    ((mergeTop (mergeTop (.mk ⟨3, 1⟩ (.u64 7) none 0) (.mk ⟨5, 0⟩ (.u64 1) none 2)
          Vis.permanent Vis.permanent).1 (.mk ⟨9, 0⟩ (.u64 2) none 4)
          Vis.permanent Vis.permanent).1.vis
        = (mergeTop (mergeTop (.mk ⟨3, 1⟩ (.u64 7) none 0) (.mk ⟨9, 0⟩ (.u64 2) none 4)
          Vis.permanent Vis.permanent).1 (.mk ⟨5, 0⟩ (.u64 1) none 2)
          Vis.permanent Vis.permanent).1.vis) ∧
    (visValue Vis.permanent
        (mergeTop (mergeTop (.mk ⟨3, 1⟩ (.u64 7) none 0) (.mk ⟨5, 0⟩ (.u64 1) none 2)
          Vis.permanent Vis.permanent).1 (.mk ⟨9, 0⟩ (.u64 2) none 4)
          Vis.permanent Vis.permanent).1
        = visValue Vis.permanent
        (mergeTop (mergeTop (.mk ⟨3, 1⟩ (.u64 7) none 0) (.mk ⟨9, 0⟩ (.u64 2) none 4)
          Vis.permanent Vis.permanent).1 (.mk ⟨5, 0⟩ (.u64 1) none 2)
          Vis.permanent Vis.permanent).1) :=
  ⟨rfl, rfl, rfl, by decide,
    (merge_commutative_childless (.mk ⟨3, 1⟩ (.u64 7) none 0) (.mk ⟨5, 0⟩ (.u64 1) none 2)
      (.mk ⟨9, 0⟩ (.u64 2) none 4) Vis.permanent Vis.permanent Vis.permanent
      rfl rfl rfl (Or.inl (by decide))).1,
    (merge_commutative_childless (.mk ⟨3, 1⟩ (.u64 7) none 0) (.mk ⟨5, 0⟩ (.u64 1) none 2)
      (.mk ⟨9, 0⟩ (.u64 2) none 4) Vis.permanent Vis.permanent Vis.permanent
      rfl rfl rfl (Or.inl (by decide))).2.2.2⟩

end Qumulus
